import Mathlib

/-!
Verification of the matrix/fitting primitives of `src/matrix_wrappers.cu`
(namespaces `matrix` and `fit`).

Device buffers of floats are embedded as functions `Nat → ℚ` (exact
arithmetic; machine rounding is irrelevant to the structural properties
settled here, and where IEEE special values decide an outcome the type
`fit.Fx` models them explicitly).  Host-side parameter arrays are `List ℚ`.
A CUDA kernel is embedded as the list of (index, value) stores its threads
perform, applied to the buffer; the vendor BLAS calls (`cublasSgemm_v2`,
`cublasSdgmm`) are embedded pointwise by their documented semantics at the
exact argument lists the source passes.
-/

namespace matrix

/-- A single store into a device buffer. -/
def upd (B : Nat → ℚ) (k : Nat) (v : ℚ) : Nat → ℚ :=
  fun p => if p = k then v else B p

/-- Apply a list of (index, value) stores to a buffer, in order. -/
def applyWrites (B : Nat → ℚ) (l : List (Nat × ℚ)) : Nat → ℚ :=
  l.foldl (fun acc kv => upd acc kv.1 kv.2) B

theorem applyWrites_of_not_mem (B : Nat → ℚ) (l : List (Nat × ℚ)) (k : Nat)
    (h : ∀ v, (k, v) ∉ l) : applyWrites B l k = B k := by
  induction l generalizing B with
  | nil => rfl
  | cons kv t ih =>
      have hk : k ≠ kv.1 := by
        intro he
        exact h kv.2 (by simp [he])
      have ht : ∀ v, (k, v) ∉ t := fun v hv => h v (List.mem_cons_of_mem _ hv)
      show applyWrites (upd B kv.1 kv.2) t k = B k
      rw [ih (upd B kv.1 kv.2) ht]
      simp [upd, hk]

theorem applyWrites_const (B : Nat → ℚ) (l : List (Nat × ℚ)) (k : Nat) (v : ℚ)
    (hmem : (k, v) ∈ l) (huniq : ∀ v', (k, v') ∈ l → v' = v) :
    applyWrites B l k = v := by
  induction l generalizing B with
  | nil => cases hmem
  | cons kv t ih =>
      by_cases ht : ∃ v', (k, v') ∈ t
      · rcases ht with ⟨v', hv'⟩
        have hv : v' = v := huniq v' (List.mem_cons_of_mem _ hv')
        subst hv
        exact ih (upd B kv.1 kv.2) hv' (fun w hw => huniq w (List.mem_cons_of_mem _ hw))
      · have hkv : kv = (k, v) := by
          rcases List.mem_cons.mp hmem with h1 | h2
          · exact h1.symm
          · exact absurd ⟨v, h2⟩ ht
        subst hkv
        have hnone : ∀ w, (k, w) ∉ t := by
          intro w hw
          exact ht ⟨w, hw⟩
        show applyWrites (upd B k v) t k = v
        rw [applyWrites_of_not_mem _ _ _ hnone]
        simp [upd]

/-- Index of element (i, l) of an operand under a transpose flag, with
leading dimension `ld` (column-major): `op(X)(i,l)` reads `X[i*ld+l]` when
transposed and `X[l*ld+i]` otherwise. -/
def opIdx (T : Bool) (ld i l : Nat) : Nat :=
  match T with
  | true => i * ld + l
  | false => l * ld + i

/-- The inner product `(op(A) · op(B))(i,j)` of `cublasSgemm_v2` at the
argument list the source passes: dimensions `m = M`, `n = K`, `k = N`,
leading dimensions `lda = M`, `ldb = N`. -/
def gemmSum (A B : Nat → ℚ) (TA TB : Bool) (M N : Nat) (i j : Nat) : ℚ :=
  ∑ l ∈ Finset.range N, A (opIdx TA M i l) * B (opIdx TB N l j)

/-- matrix::mult — `cudaMemset(C, 0, M*K*sizeof(float))` followed by
`cublasSgemm_v2(h, OA, OB, M, K, N, &alpha, A, M, B, N, &beta, C, M)`.
The gemm writes every entry of the `M*K` region as
`alpha·(op(A)op(B))(i,j) + beta·C(i,j)` where `C(i,j)` was just zeroed;
the `+ beta * 0` term is kept to mirror that.  Entries outside the `M*K`
region keep the prior content `C₀`. -/
def mult (A B : Nat → ℚ) (alpha beta : ℚ) (TA TB : Bool) (M N K : Nat)
    (C₀ : Nat → ℚ) : Nat → ℚ :=
  fun p => if p < M * K then
    alpha * gemmSum A B TA TB M N (p % M) (p / M) + beta * 0
  else C₀ p

/-- Modelled from the spec: the C5 reading of `mult` in which the `beta`
scaling is applied to the fresh product itself rather than to the
pre-existing (zeroed) C.  Used only to compare against `mult`. -/
def multC5Spec (A B : Nat → ℚ) (alpha beta : ℚ) (TA TB : Bool) (M N K : Nat)
    (C₀ : Nat → ℚ) : Nat → ℚ :=
  fun p => if p < M * K then
    beta * (alpha * gemmSum A B TA TB M N (p % M) (p / M))
  else C₀ p

/-- The n×n identity matrix, column-major. -/
def idMat (n : Nat) : Nat → ℚ :=
  fun q => if q % n = q / n then 1 else 0

/-- matrix::multD — `cudaMemset(C, 0, M*N*sizeof(float))` followed by
`cublasSdgmm(h, CUBLAS_SIDE_LEFT, M, N, B, M, A, 1, C, M)`:
`C(i,j) = A[i] * B(i,j)` on the whole `M*N` region (the dgmm overwrites
every zeroed entry), prior content elsewhere. -/
def multD (A B : Nat → ℚ) (M N : Nat) (C₀ : Nat → ℚ) : Nat → ℚ :=
  fun p => if p < M * N then A (p % M) * B p else C₀ p

/-- Decoding a column-major index: `(l*n + i) % n = i` for `i < n`. -/
theorem colDecode_mod (n i l : Nat) (hi : i < n) : (l * n + i) % n = i := by
  rw [Nat.add_comm, Nat.add_mul_mod_self_right, Nat.mod_eq_of_lt hi]

/-- Decoding a column-major index: `(l*n + i) / n = l` for `i < n`. -/
theorem colDecode_div (n i l : Nat) (hi : i < n) : (l * n + i) / n = l := by
  rw [Nat.add_comm,
    Nat.add_mul_div_right _ _ (Nat.lt_of_le_of_lt (Nat.zero_le i) hi),
    Nat.div_eq_of_lt hi, Nat.zero_add]

theorem idMat_opIdx_left (n : Nat) (T : Bool) (i l : Nat) (hi : i < n) (hl : l < n) :
    idMat n (opIdx T n i l) = if l = i then 1 else 0 := by
  cases T with
  | false =>
      show (if (l * n + i) % n = (l * n + i) / n then (1:ℚ) else 0) = _
      rw [colDecode_mod n i l hi, colDecode_div n i l hi]
      by_cases h : l = i
      · rw [if_pos h.symm, if_pos h]
      · rw [if_neg (fun he => h he.symm), if_neg h]
  | true =>
      show (if (i * n + l) % n = (i * n + l) / n then (1:ℚ) else 0) = _
      rw [colDecode_mod n l i hl, colDecode_div n l i hl]

end matrix

namespace matrix

/-- Entry `block[a][b]` of the shared tile of thread block `(bi, bj)` in
`matrix::transpose_`: it was stored in the read phase by the thread with
`threadIdx.x = b`, `threadIdx.y = a`, as `A[yIndex*M + xIndex]` with
`xIndex = blockIdx.x*bd + threadIdx.x` and `yIndex = blockIdx.y*bd + threadIdx.y`,
guarded by `xIndex < M ∧ yIndex < N`; `none` when that thread stored nothing.
The tile edge `bd` stands for the `BLOCK_DIM` macro of the header (which is
not part of this slice), kept as a parameter. -/
def sharedVal (A : Nat → ℚ) (M N bd bi bj a b : Nat) : Option ℚ :=
  if bi * bd + b < M ∧ bj * bd + a < N then
    some (A ((bj * bd + a) * M + (bi * bd + b)))
  else none

/-- The store performed by thread `(tx, ty)` of block `(bi, bj)` in the write
phase of `matrix::transpose_`: `B[yIndex*N + xIndex] = block[tx][ty]` with
`xIndex = blockIdx.y*bd + threadIdx.x`, `yIndex = blockIdx.x*bd + threadIdx.y`,
guarded by `xIndex < N ∧ yIndex < M`.  Reading an unwritten shared entry
never happens under the guard (proved below); `getD 0` is a dead default. -/
def threadWrite (A : Nat → ℚ) (M N bd bi bj tx ty : Nat) : Option (Nat × ℚ) :=
  if bj * bd + tx < N ∧ bi * bd + ty < M then
    some ((bi * bd + ty) * N + (bj * bd + tx), (sharedVal A M N bd bi bj tx ty).getD 0)
  else none

/-- All stores of the `transpose_` kernel launch with
`grid = ((M-1+bd)/bd, (N-1+bd)/bd)` and `threads = (bd, bd)`. -/
def kernelWrites (A : Nat → ℚ) (M N bd : Nat) : List (Nat × ℚ) :=
  (List.range ((M - 1 + bd) / bd)).flatMap fun bi =>
  (List.range ((N - 1 + bd) / bd)).flatMap fun bj =>
  (List.range bd).flatMap fun ty =>
  (List.range bd).filterMap fun tx =>
  threadWrite A M N bd bi bj tx ty

/-- The `transpose_` kernel: apply every thread's store to the destination
buffer (all stores target pairwise distinct indices, so order is irrelevant). -/
def transpose_ (A B : Nat → ℚ) (M N bd : Nat) : Nat → ℚ :=
  applyWrites B (kernelWrites A M N bd)

/-- matrix::transpose — the host wrapper.  When `aliased` (the `A == B`
call), A is first snapshotted into a freshly allocated scratch buffer `C`
by `vector::copy(C, A, M*N)` (the copy primitive is modelled from the spec:
elementwise `copy(dst, src, len)`; entries of `C` beyond `M*N` are
uninitialized, modelled as `0`), and the kernel reads the snapshot.
`B` is the destination buffer's prior content. -/
def transpose (A B : Nat → ℚ) (M N bd : Nat) (aliased : Bool) : Nat → ℚ :=
  let C : Nat → ℚ :=
    match aliased with
    | true => fun p => if p < M * N then A p else 0
    | false => A
  transpose_ C B M N bd

theorem threadWrite_eq_some (A : Nat → ℚ) (M N bd bi bj tx ty : Nat) (k : Nat) (v : ℚ)
    (h : threadWrite A M N bd bi bj tx ty = some (k, v)) :
    bj * bd + tx < N ∧ bi * bd + ty < M ∧
    k = (bi * bd + ty) * N + (bj * bd + tx) ∧
    v = A ((bj * bd + tx) * M + (bi * bd + ty)) := by
  unfold threadWrite at h
  by_cases hg : bj * bd + tx < N ∧ bi * bd + ty < M
  · rw [if_pos hg] at h
    have hk := Option.some.inj h
    refine ⟨hg.1, hg.2, (congrArg Prod.fst hk).symm, ?_⟩
    have hs : sharedVal A M N bd bi bj tx ty
        = some (A ((bj * bd + tx) * M + (bi * bd + ty))) := by
      unfold sharedVal
      rw [if_pos ⟨hg.2, hg.1⟩]
    have hv := congrArg Prod.snd hk
    rw [hs] at hv
    exact hv.symm
  · rw [if_neg hg] at h
    cases h

/-- Every store of the kernel that targets the slot `i*N + j` (for `i < M`,
`j < N`) stores the value `A (j*M + i)`. -/
theorem kernelWrites_value (A : Nat → ℚ) (M N bd i j : Nat)
    (hi : i < M) (hj : j < N) (v : ℚ)
    (hmem : (i * N + j, v) ∈ kernelWrites A M N bd) :
    v = A (j * M + i) := by
  unfold kernelWrites at hmem
  simp only [List.mem_flatMap, List.mem_filterMap, List.mem_range] at hmem
  obtain ⟨bi, _, bj, _, ty, _, tx, _, hw⟩ := hmem
  obtain ⟨hx, hy, hk, hv⟩ := threadWrite_eq_some A M N bd bi bj tx ty _ _ hw
  have hxj : bj * bd + tx = j := by
    have h1 : ((bi * bd + ty) * N + (bj * bd + tx)) % N = bj * bd + tx :=
      colDecode_mod N _ _ hx
    have h2 : (i * N + j) % N = j := colDecode_mod N _ _ hj
    rw [← hk, h2] at h1
    exact h1.symm
  have hyi : bi * bd + ty = i := by
    have h1 : ((bi * bd + ty) * N + (bj * bd + tx)) % N = bj * bd + tx :=
      colDecode_mod N _ _ hx
    have h3 : ((bi * bd + ty) * N + (bj * bd + tx)) / N = bi * bd + ty :=
      colDecode_div N _ _ hx
    have h4 : (i * N + j) / N = i := colDecode_div N _ _ hj
    rw [← hk, h4] at h3
    exact h3.symm
  rw [hv, hxj, hyi]

/-- The slot `i*N + j` (for `i < M`, `j < N`) is targeted by the store of
thread `(j % bd, i % bd)` of block `(i / bd, j / bd)`. -/
theorem kernelWrites_mem (A : Nat → ℚ) (M N bd i j : Nat)
    (hbd : 0 < bd) (hi : i < M) (hj : j < N) :
    (i * N + j, A (j * M + i)) ∈ kernelWrites A M N bd := by
  unfold kernelWrites
  simp only [List.mem_flatMap, List.mem_filterMap, List.mem_range]
  refine ⟨i / bd, ?_, j / bd, ?_, i % bd, Nat.mod_lt _ hbd, j % bd, Nat.mod_lt _ hbd, ?_⟩
  · have hM : 0 < M := Nat.lt_of_le_of_lt (Nat.zero_le _) hi
    have h1 : (M - 1 + bd) / bd = (M - 1) / bd + 1 := Nat.add_div_right _ hbd
    have h2 : i / bd ≤ (M - 1) / bd :=
      Nat.div_le_div_right (Nat.le_sub_one_of_lt hi)
    omega
  · have hN : 0 < N := Nat.lt_of_le_of_lt (Nat.zero_le _) hj
    have h1 : (N - 1 + bd) / bd = (N - 1) / bd + 1 := Nat.add_div_right _ hbd
    have h2 : j / bd ≤ (N - 1) / bd :=
      Nat.div_le_div_right (Nat.le_sub_one_of_lt hj)
    omega
  · have hjj : j / bd * bd + j % bd = j := by
      rw [Nat.mul_comm]
      exact Nat.div_add_mod j bd
    have hii : i / bd * bd + i % bd = i := by
      rw [Nat.mul_comm]
      exact Nat.div_add_mod i bd
    unfold threadWrite
    rw [hjj, hii, if_pos ⟨hj, hi⟩]
    unfold sharedVal
    rw [hii, hjj, if_pos ⟨hi, hj⟩]
    rfl

/-- The aggregate effect of the `transpose_` kernel:
`B[i*N + j] = A[j*M + i]` for every `i < M`, `j < N`. -/
theorem transpose_entry (A B : Nat → ℚ) (M N bd i j : Nat)
    (hbd : 0 < bd) (hi : i < M) (hj : j < N) :
    transpose_ A B M N bd (i * N + j) = A (j * M + i) := by
  unfold transpose_
  exact applyWrites_const B _ _ _ (kernelWrites_mem A M N bd i j hbd hi hj)
    (fun v' hv' => kernelWrites_value A M N bd i j hi hj v' hv')

end matrix

namespace fit

/-- The fixed perturbation of fit::jacobian: `const float eps = pow(2,-17)`
(exactly representable). -/
def epsFixed : ℚ := 1 / 2 ^ 17

/-- The relative perturbation factor of fit::jacobian_v2:
`const float eps = pow(2,-10)` (exactly representable). -/
def epsAdaptive : ℚ := 1 / 2 ^ 10

/-- The clamp floor of fit::jacobian_v2: the literal `1e-30`. -/
def stepMin : ℚ := 1 / 10 ^ 30

/-- The clamp test threshold of fit::jacobian_v2: the literal `1e-31`
appearing in `if (dB < 1e-31 && dB > -1e-31)`. -/
def stepLo : ℚ := 1 / 10 ^ 31

/-- State threaded through a Jacobian estimation: the J buffer (entries of
type `α`), the host parameter array, and the list of parameter vectors the
model evaluator has been called with, in order. -/
structure JSt (α : Type) where
  J : Nat → α
  param : List ℚ
  calls : List (List ℚ)

/-- One iteration of the loop of fit::jacobian at index `i`:
`temp = param[i]; param[i] += eps; f(next, param, N);
vector::sub(next, prev, &J[i*N], N); param[i] = temp;`.
`vector::sub(a, b, out, len)` is modelled from the spec: elementwise
`out[r] = a[r] - b[r]` for `r < len`. -/
def jacIter (f : List ℚ → Nat → ℚ) (N : Nat) (prev : Nat → ℚ)
    (st : JSt ℚ) (i : Nat) : JSt ℚ :=
  let temp := st.param.getD i 0
  let p1 := st.param.set i (temp + epsFixed)
  let next := f p1
  { J := fun p => if i * N ≤ p ∧ p < i * N + N
        then next (p - i * N) - prev (p - i * N) else st.J p,
    param := p1.set i temp,
    calls := st.calls ++ [p1] }

/-- The loop `for (int i = 0; i < K; i++)` of fit::jacobian after `k`
iterations. -/
def jacLoop (f : List ℚ → Nat → ℚ) (N : Nat) (prev : Nat → ℚ)
    (st : JSt ℚ) : Nat → JSt ℚ
  | 0 => st
  | Nat.succ k => jacIter f N prev (jacLoop f N prev st k) k

/-- fit::jacobian — fixed-epsilon finite-difference Jacobian.  The baseline
call `f(prev, param, N)` is the first entry of `calls`; after the loop the
whole `N*K` region of J is scaled in one pass by
`vector::mult(J, float(1./eps), J, N*K)` (modelled from the spec:
elementwise scaling; `1./eps = 2^17` exactly). -/
def jacobian (f : List ℚ → Nat → ℚ) (param : List ℚ) (N K : Nat)
    (J₀ : Nat → ℚ) : JSt ℚ :=
  let prev := f param
  let st := jacLoop f N prev ⟨J₀, param, [param]⟩ K
  { st with J := fun p => if p < N * K then st.J p * (1 / epsFixed) else st.J p }

/-- A float value as far as fit::jacobian_v2's scale path needs it:
a finite value (exact), a signed infinity, or NaN. -/
inductive Fx where
  | num : ℚ → Fx
  | inf : Bool → Fx
  | nan : Fx
deriving DecidableEq

/-- IEEE reciprocal of a finite value as computed by
`scale = (float)(1./((double)temp * eps))`: division of 1 by `+0` yields
`+Inf`; by a nonzero value, its exact reciprocal. -/
def Fx.recip (q : ℚ) : Fx :=
  if q = 0 then Fx.inf true else Fx.num (1 / q)

/-- IEEE product of a finite value `d` with a scale of type `Fx` (the
per-entry effect of `vector::mult(&J[i*N], scale, &J[i*N], N)`):
`finite·finite` is exact, `±Inf·d` follows the sign of `d` and gives NaN
at `d = 0`, NaN propagates. -/
def Fx.scaleMul (s : Fx) (d : ℚ) : Fx :=
  match s with
  | Fx.num q => Fx.num (d * q)
  | Fx.inf b => if d = 0 then Fx.nan else if 0 < d then Fx.inf b else Fx.inf (!b)
  | Fx.nan => Fx.nan

/-- The step fit::jacobian_v2 actually applies to parameter value `t`:
`dB = param[i] * eps; if (dB < 1e-31 && dB > -1e-31) dB = 1e-30;`. -/
def dB_applied (t : ℚ) : ℚ :=
  let dB := t * epsAdaptive
  if dB < stepLo ∧ -stepLo < dB then stepMin else dB

/-- The column scale factor fit::jacobian_v2 computes for parameter value
`t`: `scale = (float)(1./((double)temp * eps))` — from the unclamped
product. -/
def scale_applied (t : ℚ) : Fx :=
  Fx.recip (t * epsAdaptive)

/-- One iteration of the loop of fit::jacobian_v2 at index `i`:
save `temp`, apply the (possibly clamped) step, evaluate, subtract the
baseline into column i, scale column i by `scale`, restore `param[i]`. -/
def jacIter2 (f : List ℚ → Nat → ℚ) (N : Nat) (prev : Nat → ℚ)
    (st : JSt Fx) (i : Nat) : JSt Fx :=
  let temp := st.param.getD i 0
  let p1 := st.param.set i (temp + dB_applied temp)
  let next := f p1
  { J := fun p => if i * N ≤ p ∧ p < i * N + N
        then Fx.scaleMul (scale_applied temp) (next (p - i * N) - prev (p - i * N))
        else st.J p,
    param := p1.set i temp,
    calls := st.calls ++ [p1] }

/-- The loop of fit::jacobian_v2 after `k` iterations. -/
def jacLoop2 (f : List ℚ → Nat → ℚ) (N : Nat) (prev : Nat → ℚ)
    (st : JSt Fx) : Nat → JSt Fx
  | 0 => st
  | Nat.succ k => jacIter2 f N prev (jacLoop2 f N prev st k) k

/-- fit::jacobian_v2 — adaptive-epsilon finite-difference Jacobian (no
global rescale; each column is scaled inside the loop). -/
def jacobian_v2 (f : List ℚ → Nat → ℚ) (param : List ℚ) (N K : Nat)
    (J₀ : Nat → Fx) : JSt Fx :=
  let prev := f param
  jacLoop2 f N prev ⟨J₀, param, [param]⟩ K

/-- The stores of the fit::lincoef_ kernel, launched with
`blocksPerGrid = (N + threadsPerBlock - 1) / threadsPerBlock`.  The block
size `tpb` stands for the `threadsPerBlock` constant of the header (not
part of this slice).  The kernel body is
`if (i < N) A[i] = i; A[N+i] = 1;` — the second store is NOT under the
`if` (no braces in the source), so every launched thread performs it. -/
def lincoefWrites (tpb N : Nat) : List (Nat × ℚ) :=
  (List.range ((N + tpb - 1) / tpb * tpb)).flatMap fun i =>
    (if i < N then [((i : Nat), (i : ℚ))] else []) ++ [(N + i, 1)]

/-- fit::lincoef — host wrapper of the design-matrix kernel. -/
def lincoef (tpb N : Nat) (A : Nat → ℚ) : Nat → ℚ :=
  matrix.applyWrites A (lincoefWrites tpb N)

end fit

namespace fit

/-- Writing back the element just read leaves the list unchanged
(the `param[i] = temp` restoration is exact). -/
theorem set_getD_id : ∀ (l : List ℚ) (i : Nat), l.set i (l.getD i 0) = l
  | [], _ => rfl
  | a :: t, 0 => by simp
  | a :: t, i + 1 => by
      have := set_getD_id t i
      simp [List.set, List.getD] at this ⊢
      exact this

theorem jacIter_param (f : List ℚ → Nat → ℚ) (N : Nat) (prev : Nat → ℚ)
    (st : JSt ℚ) (i : Nat) : (jacIter f N prev st i).param = st.param := by
  show (st.param.set i _).set i (st.param.getD i 0) = st.param
  rw [List.set_set, set_getD_id]

theorem jacLoop_param (f : List ℚ → Nat → ℚ) (N : Nat) (prev : Nat → ℚ)
    (st : JSt ℚ) (k : Nat) : (jacLoop f N prev st k).param = st.param := by
  induction k with
  | zero => rfl
  | succ k ih => rw [jacLoop, jacIter_param, ih]

theorem jacLoop_calls (f : List ℚ → Nat → ℚ) (N : Nat) (prev : Nat → ℚ)
    (st : JSt ℚ) (k : Nat) :
    (jacLoop f N prev st k).calls =
      st.calls ++ (List.range k).map
        (fun i => st.param.set i (st.param.getD i 0 + epsFixed)) := by
  induction k with
  | zero => simp [jacLoop]
  | succ k ih =>
      rw [jacLoop]
      show (jacLoop f N prev st k).calls ++ _ = _
      rw [ih, jacLoop_param, List.range_succ, List.map_append, List.append_assoc]
      rfl

theorem jacLoop_J (f : List ℚ → Nat → ℚ) (N : Nat) (prev : Nat → ℚ)
    (st : JSt ℚ) (k : Nat) (i r : Nat) (hik : i < k) (hr : r < N) :
    (jacLoop f N prev st k).J (i * N + r) =
      f (st.param.set i (st.param.getD i 0 + epsFixed)) r - prev r := by
  induction k with
  | zero => omega
  | succ k ih =>
      rw [jacLoop]
      show (if k * N ≤ i * N + r ∧ i * N + r < k * N + N then _ else _) = _
      rcases Nat.lt_or_ge i k with hlt | hge
      · rw [if_neg, ih hlt]
        intro hc
        have h1 : (i + 1) * N ≤ k * N := Nat.mul_le_mul_right N hlt
        have h2 : (i + 1) * N = i * N + N := by ring
        omega
      · have hik' : i = k := by omega
        subst hik'
        have harg : i * N + r - i * N = r := by omega
        rw [if_pos ⟨Nat.le_add_right _ _, by omega⟩, jacLoop_param, harg]

theorem jacIter2_param (f : List ℚ → Nat → ℚ) (N : Nat) (prev : Nat → ℚ)
    (st : JSt Fx) (i : Nat) : (jacIter2 f N prev st i).param = st.param := by
  show (st.param.set i _).set i (st.param.getD i 0) = st.param
  rw [List.set_set, set_getD_id]

theorem jacLoop2_param (f : List ℚ → Nat → ℚ) (N : Nat) (prev : Nat → ℚ)
    (st : JSt Fx) (k : Nat) : (jacLoop2 f N prev st k).param = st.param := by
  induction k with
  | zero => rfl
  | succ k ih => rw [jacLoop2, jacIter2_param, ih]

end fit

/-- Device-allocator state: a fresh-id counter and the list of live buffer
ids, in allocation order. -/
structure AllocSt where
  next : Nat
  live : List Nat
deriving DecidableEq

/-- `cudaMalloc`: returns a fresh buffer id and marks it live. -/
def cudaMalloc (σ : AllocSt) : Nat × AllocSt :=
  (σ.next, ⟨σ.next + 1, σ.live ++ [σ.next]⟩)

/-- `cudaFree`: removes a buffer id from the live list. -/
def cudaFree (σ : AllocSt) (h : Nat) : AllocSt :=
  ⟨σ.next, σ.live.filter (fun x => x != h)⟩

namespace matrix

/-- The allocator effect of matrix::transpose: in the `A == B` branch it
`cudaMalloc`s the `M*N`-float snapshot buffer `C`; the function returns
(after the kernel launch) without any `cudaFree`. -/
def transposeAllocs (aliased : Bool) (σ : AllocSt) : AllocSt :=
  match aliased with
  | true => (cudaMalloc σ).2
  | false => σ

end matrix

namespace fit

/-- The allocator effect of fit::jacobian: `cudaMalloc(&prev)`,
`cudaMalloc(&next)`, and before returning
`if(prev) cudaFree(prev); if(next) cudaFree(next);`. -/
def jacobianAllocs (σ : AllocSt) : AllocSt :=
  let p := cudaMalloc σ
  let n := cudaMalloc p.2
  cudaFree (cudaFree n.2 p.1) n.1

/-- The allocator effect of fit::jacobian_v2 (same shape as fit::jacobian). -/
def jacobian_v2Allocs (σ : AllocSt) : AllocSt :=
  let p := cudaMalloc σ
  let n := cudaMalloc p.2
  cudaFree (cudaFree n.2 p.1) n.1

/-- Unfolding of `dB_applied` (the `let` zeta-reduced). -/
theorem dB_applied_eq (t : ℚ) :
    dB_applied t = if t * epsAdaptive < stepLo ∧ -stepLo < t * epsAdaptive
      then stepMin else t * epsAdaptive := rfl

/-- When the raw relative step is strictly inside `(-1e-31, 1e-31)`, the
clamp engages. -/
theorem dB_applied_of_small (t : ℚ) (h : |t * epsAdaptive| < stepLo) :
    dB_applied t = stepMin := by
  have h' := abs_lt.mp h
  rw [dB_applied_eq, if_pos ⟨h'.2, h'.1⟩]

/-- When the raw relative step has magnitude at least `1e-31`, it is used
as is. -/
theorem dB_applied_of_large (t : ℚ) (h : stepLo ≤ |t * epsAdaptive|) :
    dB_applied t = t * epsAdaptive := by
  rw [dB_applied_eq, if_neg]
  intro hc
  exact absurd (abs_lt.mpr ⟨hc.2, hc.1⟩) (not_lt.mpr h)

/-- The applied step is never exactly zero. -/
theorem dB_applied_ne_zero (t : ℚ) : dB_applied t ≠ 0 := by
  rw [dB_applied_eq]
  by_cases hc : t * epsAdaptive < stepLo ∧ -stepLo < t * epsAdaptive
  · rw [if_pos hc]
    norm_num [stepMin]
  · rw [if_neg hc]
    intro h0
    apply hc
    rw [h0]
    constructor <;> norm_num [stepLo]

end fit

namespace matrix

/-- The aggregate effect of the host matrix::transpose, both branches:
`B[i*N + j] = A[j*M + i]` for every `i < M`, `j < N`. -/
theorem transpose_correct (A B : Nat → ℚ) (M N bd : Nat) (al : Bool) (i j : Nat)
    (hbd : 0 < bd) (hi : i < M) (hj : j < N) :
    transpose A B M N bd al (i * N + j) = A (j * M + i) := by
  have hlt : j * M + i < M * N := by
    have h1 : (j + 1) * M ≤ N * M := Nat.mul_le_mul_right M hj
    have h2 : (j + 1) * M = j * M + M := by ring
    have h3 : N * M = M * N := Nat.mul_comm N M
    omega
  cases al with
  | false =>
      show transpose_ A B M N bd (i * N + j) = _
      exact transpose_entry A B M N bd i j hbd hi hj
  | true =>
      show transpose_ (fun q => if q < M * N then A q else 0) B M N bd (i * N + j) = _
      rw [transpose_entry _ B M N bd i j hbd hi hj]
      exact if_pos hlt

end matrix

/-- C1: fit::jacobian with parameter vector of length K uses the single
global perturbation eps = 2^-17, calls the evaluator exactly K+1 times
(first unperturbed, then once per parameter with only coordinate i
perturbed by +eps), fills column i of the N-by-K column-major buffer with
the forward difference, and after the loop scales the whole N*K buffer by
1/eps, so column i holds (f(param + eps·e_i) - f(param)) / eps. -/
theorem C1_jacobian_fixed_eps (f : List ℚ → Nat → ℚ) (param : List ℚ) (N K : Nat)
    (J₀ : Nat → ℚ) (hK : param.length = K) :
    (fit.jacobian f param N K J₀).calls.length = K + 1 ∧
    (fit.jacobian f param N K J₀).calls
      = param :: (List.range K).map
          (fun i => param.set i (param.getD i 0 + fit.epsFixed)) ∧
    ∀ i r, i < K → r < N →
      (fit.jacobian f param N K J₀).J (i * N + r)
        = (f (param.set i (param.getD i 0 + fit.epsFixed)) r - f param r)
            / fit.epsFixed := by
  have hcalls : (fit.jacobian f param N K J₀).calls
      = param :: (List.range K).map
          (fun i => param.set i (param.getD i 0 + fit.epsFixed)) := by
    show (fit.jacLoop f N (f param) ⟨J₀, param, [param]⟩ K).calls = _
    rw [fit.jacLoop_calls]
    rfl
  refine ⟨?_, hcalls, ?_⟩
  · rw [hcalls]
    simp
  · intro i r hi hr
    have hbound : i * N + r < N * K := by
      have h1 : (i + 1) * N ≤ K * N := Nat.mul_le_mul_right N hi
      have h2 : (i + 1) * N = i * N + N := by ring
      have h3 : K * N = N * K := Nat.mul_comm K N
      omega
    show (if i * N + r < N * K
        then (fit.jacLoop f N (f param) ⟨J₀, param, [param]⟩ K).J (i * N + r) * (1 / fit.epsFixed)
        else (fit.jacLoop f N (f param) ⟨J₀, param, [param]⟩ K).J (i * N + r)) = _
    rw [if_pos hbound,
      fit.jacLoop_J f N (f param) ⟨J₀, param, [param]⟩ K i r hi hr, mul_one_div]

/-- C1 witness: the theorem instantiated at a concrete evaluator,
parameter vector [1, 2], N = 3, K = 2. -/
theorem C1_jacobian_fixed_eps_witness :
    ([(1 : ℚ), 2].length = 2) ∧
    ((fit.jacobian (fun l r => l.getD 0 0 * (r : ℚ)) [(1 : ℚ), 2] 3 2 (fun _ => 0)).calls.length
        = 2 + 1 ∧
      (fit.jacobian (fun l r => l.getD 0 0 * (r : ℚ)) [(1 : ℚ), 2] 3 2 (fun _ => 0)).calls
        = [(1 : ℚ), 2] :: (List.range 2).map
            (fun i => [(1 : ℚ), 2].set i ([(1 : ℚ), 2].getD i 0 + fit.epsFixed)) ∧
      ∀ i r, i < 2 → r < 3 →
        (fit.jacobian (fun l r => l.getD 0 0 * (r : ℚ)) [(1 : ℚ), 2] 3 2 (fun _ => 0)).J
            (i * 3 + r)
          = (([(1 : ℚ), 2].set i ([(1 : ℚ), 2].getD i 0 + fit.epsFixed)).getD 0 0 * (r : ℚ)
              - [(1 : ℚ), 2].getD 0 0 * (r : ℚ)) / fit.epsFixed) :=
  ⟨rfl, C1_jacobian_fixed_eps (fun l r => l.getD 0 0 * (r : ℚ)) [(1 : ℚ), 2] 3 2 (fun _ => 0) rfl⟩

/-- C2: after either Jacobian estimator returns, the parameter vector
equals its value at entry (each iteration saves param[i] and restores
exactly the saved value). -/
theorem C2_param_restored (f g : List ℚ → Nat → ℚ) (param : List ℚ) (N K : Nat)
    (J₀ : Nat → ℚ) (J₁ : Nat → fit.Fx) :
    (fit.jacobian f param N K J₀).param = param ∧
    (fit.jacobian_v2 g param N K J₁).param = param := by
  constructor
  · show (fit.jacLoop f N (f param) ⟨J₀, param, [param]⟩ K).param = param
    rw [fit.jacLoop_param]
  · show (fit.jacLoop2 g N (g param) ⟨J₁, param, [param]⟩ K).param = param
    rw [fit.jacLoop2_param]

/-- C3: fit::jacobian_v2 at a parameter whose value is exactly 0.0 — the
clamp does engage (the perturbed evaluation uses exactly the floor 1e-30,
which is nonzero), but contrary to the claim the Jacobian column is
non-finite: `scale = 1/((double)temp * eps) = 1/0 = +Inf`, so the single
column entry is +Inf (evaluator `f(param)[r] = param[0]`, N = K = 1). -/
theorem C3_zero_param_column_inf :
    (fit.jacobian_v2 (fun l _ => l.getD 0 0) [0] 1 1 (fun _ => fit.Fx.num 0)).calls
      = [[0], [fit.stepMin]] ∧
    fit.stepMin ≠ 0 ∧
    (fit.jacobian_v2 (fun l _ => l.getD 0 0) [0] 1 1 (fun _ => fit.Fx.num 0)).J 0
      = fit.Fx.inf true := by
  refine ⟨?_, by norm_num [fit.stepMin], ?_⟩
  · norm_num [fit.jacobian_v2, fit.jacLoop2, fit.jacIter2, fit.dB_applied,
      fit.epsAdaptive, fit.stepLo, fit.stepMin]
  · norm_num [fit.jacobian_v2, fit.jacLoop2, fit.jacIter2, fit.dB_applied,
      fit.scale_applied, fit.Fx.recip, fit.Fx.scaleMul,
      fit.epsAdaptive, fit.stepLo, fit.stepMin]

/-- C4 counterexample: at parameter value 512/10^30 the raw step
dB = 5e-31 has magnitude below 1e-30, yet the code does not clamp it to
1e-30 (its test is against 1e-31, not 1e-30). -/
theorem C4_counterexample :
    |((512 : ℚ) / 10 ^ 30) * fit.epsAdaptive| < fit.stepMin ∧
    fit.dB_applied ((512 : ℚ) / 10 ^ 30) ≠ fit.stepMin := by
  have hpos : (0 : ℚ) < ((512 : ℚ) / 10 ^ 30) * fit.epsAdaptive := by
    norm_num [fit.epsAdaptive]
  constructor
  · rw [abs_of_pos hpos]
    norm_num [fit.epsAdaptive, fit.stepMin]
  · norm_num [fit.dB_applied, fit.epsAdaptive, fit.stepLo, fit.stepMin]

/-- C4 (amended): the relative step is dB = param[i]·2^-10, and the clamp
to exactly 1e-30 engages precisely when |dB| falls below 1e-31 (the code
tests `dB < 1e-31 && dB > -1e-31`), not 1e-30; consequently the applied
perturbation is never exactly zero. -/
theorem C4_step_clamp (t : ℚ) :
    (|t * fit.epsAdaptive| < fit.stepLo → fit.dB_applied t = fit.stepMin) ∧
    (fit.stepLo ≤ |t * fit.epsAdaptive| → fit.dB_applied t = t * fit.epsAdaptive) ∧
    fit.dB_applied t ≠ 0 :=
  ⟨fit.dB_applied_of_small t, fit.dB_applied_of_large t, fit.dB_applied_ne_zero t⟩

/-- C4 witness: both branches of the clamp, at t = 0 and t = 1. -/
theorem C4_step_clamp_witness :
    (|(0 : ℚ) * fit.epsAdaptive| < fit.stepLo ∧ fit.dB_applied 0 = fit.stepMin) ∧
    (fit.stepLo ≤ |(1 : ℚ) * fit.epsAdaptive| ∧ fit.dB_applied 1 = 1 * fit.epsAdaptive) ∧
    fit.dB_applied 0 ≠ 0 := by
  have h0 : |(0 : ℚ) * fit.epsAdaptive| < fit.stepLo := by
    norm_num [fit.stepLo]
  have h1 : fit.stepLo ≤ |(1 : ℚ) * fit.epsAdaptive| := by
    rw [one_mul, abs_of_pos (by norm_num [fit.epsAdaptive] : (0 : ℚ) < fit.epsAdaptive)]
    norm_num [fit.stepLo, fit.epsAdaptive]
  exact ⟨⟨h0, (C4_step_clamp 0).1 h0⟩, ⟨h1, (C4_step_clamp 1).2.1 h1⟩,
    (C4_step_clamp 0).2.2⟩

/-- C5 counterexample: with alpha = 1, beta = 2 on 1×1 matrices A = B = [1],
matrix::mult produces 1 (beta multiplies the zeroed C and is inert), not
the 2 that "beta scaling applied to the product" would give. -/
theorem C5_counterexample :
    matrix.mult (fun _ => 1) (fun _ => 1) 1 2 false false 1 1 1 (fun _ => 0) 0
      ≠ matrix.multC5Spec (fun _ => 1) (fun _ => 1) 1 2 false false 1 1 1 (fun _ => 0) 0 := by
  norm_num [matrix.mult, matrix.multC5Spec, matrix.gemmSum, matrix.opIdx]

/-- C5 (amended): matrix::mult overwrites every entry of the M*K region of
C with alpha·op(A)·op(B) alone — beta is inert because it scales the
freshly zeroed C, and the prior content of C does not contribute; in
particular with alpha = 1 (and any beta), multiplying by an identity
matrix on either side, under every transpose flag on the identity,
reproduces the other operand unchanged. -/
theorem C5_mult_overwrites :
    (∀ (A B : Nat → ℚ) (alpha beta : ℚ) (TA TB : Bool) (M N K : Nat) (C₀ : Nat → ℚ) (p : Nat),
      p < M * K →
      matrix.mult A B alpha beta TA TB M N K C₀ p
        = alpha * matrix.gemmSum A B TA TB M N (p % M) (p / M)) ∧
    (∀ (B : Nat → ℚ) (beta : ℚ) (TA : Bool) (M N : Nat) (C₀ : Nat → ℚ) (p : Nat),
      p < M * N →
      matrix.mult (matrix.idMat M) B 1 beta TA false M M N C₀ p = B p) ∧
    (∀ (A : Nat → ℚ) (beta : ℚ) (TB : Bool) (M N : Nat) (C₀ : Nat → ℚ) (p : Nat),
      p < M * N →
      matrix.mult A (matrix.idMat N) 1 beta false TB M N N C₀ p = A p) := by
  refine ⟨?_, ?_, ?_⟩
  · intro A B alpha beta TA TB M N K C₀ p hp
    show (if p < M * K then _ else _) = _
    rw [if_pos hp, mul_zero, add_zero]
  · intro B beta TA M N C₀ p hp
    have hM : 0 < M := by
      rcases Nat.eq_zero_or_pos M with h | h
      · subst h; simp at hp
      · exact h
    have hi : p % M < M := Nat.mod_lt _ hM
    have hj : p / M < N := by
      rw [Nat.div_lt_iff_lt_mul hM, Nat.mul_comm]
      exact hp
    show (if p < M * N then
        1 * matrix.gemmSum (matrix.idMat M) B TA false M M (p % M) (p / M) + beta * 0
      else C₀ p) = B p
    rw [if_pos hp, mul_zero, add_zero, one_mul]
    unfold matrix.gemmSum
    have hterm : ∀ l ∈ Finset.range M,
        matrix.idMat M (matrix.opIdx TA M (p % M) l) * B (matrix.opIdx false M l (p / M))
          = if l = p % M then B (p / M * M + l) else 0 := by
      intro l hl
      rw [matrix.idMat_opIdx_left M TA (p % M) l hi (Finset.mem_range.mp hl)]
      by_cases h : l = p % M
      · rw [if_pos h, if_pos h, one_mul]
        rfl
      · rw [if_neg h, if_neg h, zero_mul]
    rw [Finset.sum_congr rfl hterm, Finset.sum_ite_eq' (Finset.range M) (p % M)
      (fun l => B (p / M * M + l)), if_pos (Finset.mem_range.mpr hi)]
    congr 1
    rw [Nat.mul_comm]
    exact Nat.div_add_mod p M
  · intro A beta TB M N C₀ p hp
    have hM : 0 < M := by
      rcases Nat.eq_zero_or_pos M with h | h
      · subst h; simp at hp
      · exact h
    have hi : p % M < M := Nat.mod_lt _ hM
    have hj : p / M < N := by
      rw [Nat.div_lt_iff_lt_mul hM, Nat.mul_comm]
      exact hp
    show (if p < M * N then
        1 * matrix.gemmSum A (matrix.idMat N) false TB M N (p % M) (p / M) + beta * 0
      else C₀ p) = A p
    rw [if_pos hp, mul_zero, add_zero, one_mul]
    unfold matrix.gemmSum
    have hterm : ∀ l ∈ Finset.range N,
        A (matrix.opIdx false M (p % M) l) * matrix.idMat N (matrix.opIdx TB N l (p / M))
          = if p / M = l then A (l * M + p % M) else 0 := by
      intro l hl
      rw [matrix.idMat_opIdx_left N TB l (p / M) (Finset.mem_range.mp hl) hj]
      by_cases h : p / M = l
      · rw [if_pos h, if_pos h, mul_one]
        rfl
      · rw [if_neg h, if_neg h, mul_zero]
    rw [Finset.sum_congr rfl hterm, Finset.sum_ite_eq (Finset.range N) (p / M)
      (fun l => A (l * M + p % M)), if_pos (Finset.mem_range.mpr hj)]
    rw [Nat.mul_comm]
    congr 1
    exact Nat.div_add_mod p M

/-- C5 witness: all three conjuncts at 1×1 instances with beta = 7. -/
theorem C5_mult_overwrites_witness :
    (0 < 1 * 1 ∧
      matrix.mult (fun _ => (3 : ℚ)) (fun _ => 4) 2 7 false false 1 1 1 (fun _ => 0) 0
        = 2 * matrix.gemmSum (fun _ => (3 : ℚ)) (fun _ => 4) false false 1 1 (0 % 1) (0 / 1)) ∧
    (matrix.mult (matrix.idMat 1) (fun _ => (4 : ℚ)) 1 7 true false 1 1 1 (fun _ => 0) 0
        = (fun _ => (4 : ℚ)) 0) ∧
    (matrix.mult (fun _ => (3 : ℚ)) (matrix.idMat 1) 1 7 false true 1 1 1 (fun _ => 0) 0
        = (fun _ => (3 : ℚ)) 0) :=
  ⟨⟨Nat.one_pos, C5_mult_overwrites.1 (fun _ => 3) (fun _ => 4) 2 7 false false 1 1 1
      (fun _ => 0) 0 Nat.one_pos⟩,
    C5_mult_overwrites.2.1 (fun _ => 4) 7 true 1 1 (fun _ => 0) 0 Nat.one_pos,
    C5_mult_overwrites.2.2 (fun _ => 3) 7 true 1 1 (fun _ => 0) 0 Nat.one_pos⟩

/-- C6: transposing twice returns the original matrix element-wise on the
whole M×N buffer, for all M, N and any positive tile edge (no multiple-of-
tile restriction), each pass taken either in place (aliased: the input is
snapshotted first) or out of place, and regardless of the destination
buffers' prior contents. -/
theorem C6_transpose_involution (A B₀ B₁ : Nat → ℚ) (M N bd : Nat) (a₁ a₂ : Bool)
    (p : Nat) (hbd : 0 < bd) (hp : p < M * N) :
    matrix.transpose (matrix.transpose A B₀ M N bd a₁) B₁ N M bd a₂ p = A p := by
  have hM : 0 < M := by
    rcases Nat.eq_zero_or_pos M with h | h
    · subst h; simp at hp
    · exact h
  have hj : p % M < M := Nat.mod_lt _ hM
  have hi : p / M < N := by
    rw [Nat.div_lt_iff_lt_mul hM, Nat.mul_comm]
    exact hp
  have hp_eq : p = p / M * M + p % M := by
    rw [Nat.mul_comm]
    exact (Nat.div_add_mod p M).symm
  calc matrix.transpose (matrix.transpose A B₀ M N bd a₁) B₁ N M bd a₂ p
      = matrix.transpose (matrix.transpose A B₀ M N bd a₁) B₁ N M bd a₂
          (p / M * M + p % M) := by rw [← hp_eq]
    _ = matrix.transpose A B₀ M N bd a₁ (p % M * N + p / M) :=
        matrix.transpose_correct _ B₁ N M bd a₂ (p / M) (p % M) hbd hi hj
    _ = A (p / M * M + p % M) :=
        matrix.transpose_correct A B₀ M N bd a₁ (p % M) (p / M) hbd hj hi
    _ = A p := by rw [← hp_eq]

/-- C6 witness: a 1×2 matrix, tile edge 1, both passes in place. -/
theorem C6_transpose_involution_witness :
    0 < 1 ∧ 1 < 1 * 2 ∧
    matrix.transpose
      (matrix.transpose (fun q => (q : ℚ)) (fun q => (q : ℚ)) 1 2 1 true)
      (fun _ => 0) 2 1 1 true 1 = (fun q => (q : ℚ)) 1 :=
  ⟨Nat.one_pos, by norm_num,
    C6_transpose_involution (fun q => (q : ℚ)) (fun q => (q : ℚ)) (fun _ => 0)
      1 2 1 true true 1 Nat.one_pos (by norm_num)⟩

/-- C7: matrix::multD computes C = diag(d)·B — entry (r, c) of the M×N
result is d[r]·B[r, c] — and with an all-ones diagonal vector it is the
identity on B. -/
theorem C7_multD_diag (d B C₀ : Nat → ℚ) (M N r c : Nat) (hr : r < M) (hc : c < N) :
    matrix.multD d B M N C₀ (c * M + r) = d r * B (c * M + r) ∧
    matrix.multD (fun _ => 1) B M N C₀ (c * M + r) = B (c * M + r) := by
  have hlt : c * M + r < M * N := by
    have h1 : (c + 1) * M ≤ N * M := Nat.mul_le_mul_right M hc
    have h2 : (c + 1) * M = c * M + M := by ring
    have h3 : N * M = M * N := Nat.mul_comm N M
    omega
  have hmod : (c * M + r) % M = r := matrix.colDecode_mod M r c hr
  constructor
  · show (if c * M + r < M * N then d ((c * M + r) % M) * B (c * M + r) else C₀ (c * M + r))
        = d r * B (c * M + r)
    rw [if_pos hlt, hmod]
  · show (if c * M + r < M * N then (1 : ℚ) * B (c * M + r) else C₀ (c * M + r))
        = B (c * M + r)
    rw [if_pos hlt, one_mul]

/-- C7 witness: the theorem at M = N = 1, d = [2], B = [3]. -/
theorem C7_multD_diag_witness :
    0 < 1 ∧ 0 < 1 ∧
    (matrix.multD (fun _ => (2 : ℚ)) (fun _ => 3) 1 1 (fun _ => 0) (0 * 1 + 0)
        = (fun _ => (2 : ℚ)) 0 * (fun _ => (3 : ℚ)) (0 * 1 + 0) ∧
      matrix.multD (fun _ => 1) (fun _ => (3 : ℚ)) 1 1 (fun _ => 0) (0 * 1 + 0)
        = (fun _ => (3 : ℚ)) (0 * 1 + 0)) :=
  ⟨Nat.one_pos, Nat.one_pos,
    C7_multD_diag (fun _ => 2) (fun _ => 3) (fun _ => 0) 1 1 0 0 Nat.one_pos Nat.one_pos⟩

/-- C8: fit::lincoef at N = 1 with block size 4 — the guarded store fills
the 2N region correctly (A[0] = 0, A[1] = 1), but because `A[N+i] = 1;`
stands outside the `if (i < N)` (the source has no braces), the three extra
threads also store 1 at A[2], A[3], A[4]; index 4 lies outside the
2N = 2 element region, refuting "performs no write outside that region". -/
theorem C8_lincoef_oob :
    fit.lincoef 4 1 (fun _ => 37) 0 = 0 ∧
    fit.lincoef 4 1 (fun _ => 37) 1 = 1 ∧
    fit.lincoef 4 1 (fun _ => 37) 4 = 1 ∧
    fit.lincoef 4 1 (fun _ => 37) 5 = 37 := by decide

/-- C9: the two N-length scratch buffers of fit::jacobian and of
fit::jacobian_v2 are both freed before return (live set restored to
empty), but the snapshot buffer cudaMalloc-ed by matrix::transpose in the
in-place A == B branch is never freed: it is still live when transpose
returns, refuting "no internally allocated buffer outlives the call". -/
theorem C9_scratch_release :
    (fit.jacobianAllocs ⟨0, []⟩).live = [] ∧
    (fit.jacobian_v2Allocs ⟨0, []⟩).live = [] ∧
    (matrix.transposeAllocs true ⟨0, []⟩).live = [0] := by decide

/-- C10: in fit::jacobian_v2, whenever the clamp engages for a nonzero
parameter t (0 < |t·2^-10| < 1e-31), the applied step is the positive
constant 1e-30 regardless of the sign of t, while the column scale factor
is still 1/(t·2^-10) computed from the unclamped product — so it is not
the reciprocal of the applied step, and for negative t it has the
opposite sign. -/
theorem C10_clamped_scale_mismatch (t : ℚ) (ht : t ≠ 0)
    (hsmall : |t * fit.epsAdaptive| < fit.stepLo) :
    fit.dB_applied t = fit.stepMin ∧
    fit.scale_applied t = fit.Fx.num (1 / (t * fit.epsAdaptive)) ∧
    1 / (t * fit.epsAdaptive) ≠ 1 / fit.dB_applied t ∧
    (t < 0 → 1 / (t * fit.epsAdaptive) < 0) := by
  have hta : t * fit.epsAdaptive ≠ 0 := by
    intro h
    rcases mul_eq_zero.mp h with h | h
    · exact ht h
    · exact absurd h (by norm_num [fit.epsAdaptive])
  have hdB : fit.dB_applied t = fit.stepMin := fit.dB_applied_of_small t hsmall
  refine ⟨hdB, ?_, ?_, ?_⟩
  · unfold fit.scale_applied fit.Fx.recip
    rw [if_neg hta]
  · rw [hdB]
    intro heq
    have habs : |1 / (t * fit.epsAdaptive)| = |1 / fit.stepMin| := by rw [heq]
    rw [abs_one_div, abs_one_div] at habs
    have hgt : 1 / fit.stepLo < 1 / |t * fit.epsAdaptive| :=
      one_div_lt_one_div_of_lt (abs_pos.mpr hta) hsmall
    rw [habs] at hgt
    rw [show |fit.stepMin| = fit.stepMin from abs_of_pos (by norm_num [fit.stepMin])] at hgt
    norm_num [fit.stepLo, fit.stepMin] at hgt
  · intro htneg
    apply one_div_neg.mpr
    exact mul_neg_of_neg_of_pos htneg (by norm_num [fit.epsAdaptive])

/-- C10 witness: the theorem at t = -1e-30 (clamp engages for this
negative parameter; its scale factor is negative while the step is the
positive 1e-30). -/
theorem C10_clamped_scale_mismatch_witness :
    fit.dB_applied (-(1 / 10 ^ 30)) = fit.stepMin ∧
    fit.scale_applied (-(1 / 10 ^ 30)) = fit.Fx.num (1 / (-(1 / 10 ^ 30) * fit.epsAdaptive)) ∧
    1 / (-(1 / 10 ^ 30) * fit.epsAdaptive) ≠ 1 / fit.dB_applied (-(1 / 10 ^ 30)) ∧
    1 / (-(1 / 10 ^ 30) * fit.epsAdaptive) < 0 := by
  have ht : (-(1 / 10 ^ 30) : ℚ) ≠ 0 := by norm_num
  have hneg : ((-(1 / 10 ^ 30) : ℚ)) * fit.epsAdaptive < 0 := by
    norm_num [fit.epsAdaptive]
  have hsmall : |(-(1 / 10 ^ 30) : ℚ) * fit.epsAdaptive| < fit.stepLo := by
    rw [abs_of_neg hneg]
    norm_num [fit.epsAdaptive, fit.stepLo]
  have h := C10_clamped_scale_mismatch (-(1 / 10 ^ 30)) ht hsmall
  exact ⟨h.1, h.2.1, h.2.2.1, h.2.2.2 (by norm_num)⟩
